import Mathlib

/-!
Verification development for the `migrate` library (package `migrate`).

The definitions below are a shallow embedding of `migrator.go`:
pure data (`Migration`, `RunOptions`) is copied directly; the effectful
methods of `Migrator` are modelled as state-passing functions over a
`DBState` (the bookkeeping table) that additionally return a trace of the
observable effects issued to the dialect and the logger (`Event`), and an
`Except String Unit` outcome mirroring the Go `error` return.

Collaborators are modelled as follows:
  * the dialect's transaction and bookkeeping operations always succeed and
    are recorded in the trace (`beginTx`, `execBody`, `storeApplied`,
    `deleteApplied`, `commitTx`);
  * `Source.GetMigrations` is a parameter of type
    `Except String (List Migration)` so that a failing catalog read can be
    injected;
  * `CreateMigrationsTable`, `Lock`, `Unlock`, `GetAppliedMigrations`
    always succeed and are recorded in the trace.
-/

namespace Migrate

/-- Struct `Migration` from `source.go`: a version identifier, the forward SQL
content and the reverse (`down`) SQL content, both byte slices. -/
structure Migration where
  Version : String
  Content : List UInt8
  DownContent : List UInt8
deriving DecidableEq, Repr

/-- Struct `RunOptions` from `migrator.go`: only the dry-run flag. -/
structure RunOptions where
  DryRun : Bool
deriving DecidableEq, Repr

/-- One observable effect issued to the dialect or the logger. -/
inductive Event where
  | createTable
  | lock
  | unlock
  | getMigrations
  | getApplied
  | beginTx
  | execBody (content : List UInt8)
  | storeApplied (version : String)
  | deleteApplied (version : String)
  | commitTx
  | info (msg : String)
  | infoFile (msg : String) (version : String)
deriving DecidableEq, Repr

/-- The database state visible to the migrator: whether the bookkeeping
table exists, and its rows (applied versions) in application order. -/
structure DBState where
  tableCreated : Bool
  applied : List String
deriving DecidableEq, Repr

instance instDecEqExcept {ε α : Type} [DecidableEq ε] [DecidableEq α] :
    DecidableEq (Except ε α) := fun x y =>
  match x, y with
  | .ok a, .ok b =>
    if h : a = b then .isTrue (by rw [h]) else .isFalse (fun hc => h (by cases hc; rfl))
  | .ok _, .error _ => .isFalse (fun hc => Except.noConfusion hc)
  | .error _, .ok _ => .isFalse (fun hc => Except.noConfusion hc)
  | .error e, .error f =>
    if h : e = f then .isTrue (by rw [h]) else .isFalse (fun hc => h (by cases hc; rfl))

/-- Result of a run: the Go `error` return, the final database state and
the trace of effects, in order. -/
structure MResult where
  res : Except String Unit
  state : DBState
  trace : List Event
deriving DecidableEq, Repr

/-- Method `Migrator.applyMigrations`: rejects an empty body, otherwise runs
begin / exec / record / commit.  The bookkeeping record written inside the
transaction is passed as the event plus the state update it performs. -/
def applyMigrations (s : DBState) (content : List UInt8) (name : String)
    (recordEvent : Event) (recordState : DBState → DBState) : MResult :=
  if content.length = 0 then
    ⟨.error ("no content to apply for migration: " ++ name), s, []⟩
  else
    ⟨.ok (), recordState s, [.beginTx, .execBody content, recordEvent, .commitTx]⟩

/-- Method `Migrator.commitMigration`: apply the forward content and insert the
version into the bookkeeping table. -/
def commitMigration (s : DBState) (migration : Migration) : MResult :=
  applyMigrations s migration.Content migration.Version
    (.storeApplied migration.Version)
    (fun st => { st with applied := st.applied ++ [migration.Version] })

/-- Method `Migrator.rollbackMigration`: apply the reverse content and delete the
version from the bookkeeping table (SQL `DELETE ... WHERE version = ?`). -/
def rollbackMigration (s : DBState) (migration : Migration) : MResult :=
  applyMigrations s migration.DownContent migration.Version
    (.deleteApplied migration.Version)
    (fun st => { st with applied := st.applied.filter (fun x => !(x == migration.Version)) })

/-- The loop body of `Migrator.doUp` (after step normalisation): walk the
catalog, skip applied entries, stop when the step budget is exhausted. -/
def upLoop (s : DBState) (steps : Nat) (applied : List String)
    (migrations : List Migration) (options : RunOptions) : MResult :=
  match migrations with
  | [] => ⟨.ok (), s, []⟩
  | file :: rest =>
    if steps = 0 then ⟨.ok (), s, []⟩
    else if applied.contains file.Version then
      upLoop s steps applied rest options
    else if options.DryRun then
      let r := upLoop s (steps - 1) applied rest options
      ⟨r.res, r.state, .infoFile "would migrate" file.Version :: r.trace⟩
    else
      let c := commitMigration s file
      match c.res with
      | .error e =>
        ⟨.error ("failed to apply migration " ++ file.Version ++ ": " ++ e), c.state, c.trace⟩
      | .ok _ =>
        let r := upLoop c.state (steps - 1) applied rest options
        ⟨r.res, r.state, c.trace ++ .infoFile "migrated" file.Version :: r.trace⟩

/-- Method `Migrator.doUp`: normalise the step bound, then run the loop. -/
def doUp (s : DBState) (steps : Int) (applied : List String)
    (migrations : List Migration) (options : RunOptions) : MResult :=
  let steps :=
    if steps ≤ 0 ∨ steps > (migrations.length : Int) then (migrations.length : Int) else steps
  upLoop s steps.toNat applied migrations options

/-- The inner linear search of `doDown` over the catalog
(`for _, f := range migrations`). -/
def findMigration (migrations : List Migration) (version : String) : Option Migration :=
  migrations.find? (fun f => f.Version == version)

/-- The rollback loop of `Migrator.doDown`, already iterating over the
versions in the order they are rolled back (most recently applied first). -/
def downLoop (s : DBState) (versions : List String)
    (migrations : List Migration) (options : RunOptions) : MResult :=
  match versions with
  | [] => ⟨.ok (), s, []⟩
  | version :: rest =>
    match findMigration migrations version with
    | none => ⟨.error ("migration file not found for version: " ++ version), s, []⟩
    | some migration =>
      if options.DryRun then
        let r := downLoop s rest migrations options
        ⟨r.res, r.state, .infoFile "would rollback" version :: r.trace⟩
      else
        let c := rollbackMigration s migration
        match c.res with
        | .error e =>
          ⟨.error ("failed to rollback migration " ++ version ++ ": " ++ e), c.state, c.trace⟩
        | .ok _ =>
          let r := downLoop c.state rest migrations options
          ⟨r.res, r.state, c.trace ++ .infoFile "rolled back" version :: r.trace⟩

/-- Method `Migrator.doDown`: normalise the step count, handle the empty case,
take the trailing `steps` applied versions and roll them back in reverse. -/
def doDown (s : DBState) (steps : Int) (applied : List String)
    (migrations : List Migration) (options : RunOptions) : MResult :=
  let steps :=
    if steps < 0 ∨ steps > (applied.length : Int) then (applied.length : Int) else steps
  if steps = 0 then ⟨.ok (), s, [.info "no migrations to rollback"]⟩
  else downLoop s ((applied.drop (applied.length - steps.toNat)).reverse) migrations options

/-- The catalog scan of `Migrator.To`'s forward branch: walk the catalog
tracking whether the current version has been passed (`apply`), counting
`upSteps`, failing when the target shows up before the current version. -/
def toScan (migrations : List Migration) (apply : Bool) (upSteps : Nat)
    (current target : String) : Except String (Bool × Nat) :=
  match migrations with
  | [] => .ok (false, upSteps)
  | f :: rest =>
    if f.Version == current then
      if f.Version == target then .ok (true, upSteps)
      else toScan rest true upSteps current target
    else if apply then
      if f.Version == target then .ok (true, upSteps + 1)
      else toScan rest apply (upSteps + 1) current target
    else
      if f.Version == target then
        .error ("applied migration and migrations are not in the same order for version: " ++ target)
      else toScan rest apply upSteps current target

/-- The closure passed to `prepareData` by `Migrator.To`. -/
def ToBody (s : DBState) (applied : List String) (migrations : List Migration)
    (version : String) (options : RunOptions) : MResult :=
  let currentVersion := applied.getLast?.getD ""
  if currentVersion == version then ⟨.ok (), s, []⟩
  else
    match applied.findIdx? (fun v => v == version) with
    | some appliedIndex =>
      doDown s ((applied.length : Int) - (appliedIndex : Int) - 1) applied migrations options
    | none =>
      match toScan migrations applied.isEmpty 0 currentVersion version with
      | .error e => ⟨.error e, s, []⟩
      | .ok (found, upSteps) =>
        if found then
          if 0 < upSteps then doUp s (upSteps : Int) applied migrations options
          else ⟨.ok (), s, []⟩
        else ⟨.error ("migration file not found for version: " ++ version), s, []⟩

/-- Method `Migrator.prepareData`: create the bookkeeping table, lock (skipped in
dry run), read the catalog and the applied set, call the continuation and
finally unlock (deferred, so it also runs on the error path). -/
def prepareData (s : DBState) (steps : Int) (sourceResult : Except String (List Migration))
    (after : DBState → Int → List String → List Migration → RunOptions → MResult)
    (options : RunOptions) : MResult :=
  let s1 : DBState := { s with tableCreated := true }
  if options.DryRun then
    match sourceResult with
    | .error e =>
      ⟨.error ("failed to get migration files: " ++ e), s1, [.createTable, .getMigrations]⟩
    | .ok migrations =>
      let r := after s1 steps s1.applied migrations options
      ⟨r.res, r.state, .createTable :: .getMigrations :: .getApplied :: r.trace⟩
  else
    match sourceResult with
    | .error e =>
      ⟨.error ("failed to get migration files: " ++ e), s1,
        [.createTable, .lock, .getMigrations, .unlock]⟩
    | .ok migrations =>
      let r := after s1 steps s1.applied migrations options
      ⟨r.res, r.state,
        .createTable :: .lock :: .getMigrations :: .getApplied :: (r.trace ++ [.unlock])⟩

/-- Method `Migrator.Up`. -/
def UpM (s : DBState) (src : Except String (List Migration)) (options : RunOptions) : MResult :=
  prepareData s 0 src doUp options

/-- Method `Migrator.Down`. -/
def DownM (s : DBState) (steps : Int) (src : Except String (List Migration))
    (options : RunOptions) : MResult :=
  prepareData s steps src doDown options

/-- Method `Migrator.To`. -/
def ToM (s : DBState) (version : String) (src : Except String (List Migration))
    (options : RunOptions) : MResult :=
  prepareData s 0 src
    (fun st _ applied migrations opts => ToBody st applied migrations version opts) options

/-- Versions inserted into the bookkeeping table, in trace order. -/
def storedVersions (tr : List Event) : List String :=
  tr.filterMap fun e => match e with | .storeApplied v => some v | _ => none

/-- Versions deleted from the bookkeeping table, in trace order. -/
def deletedVersions (tr : List Event) : List String :=
  tr.filterMap fun e => match e with | .deleteApplied v => some v | _ => none

/-- Migration bodies executed against the database, in trace order. -/
def executedBodies (tr : List Event) : List (List UInt8) :=
  tr.filterMap fun e => match e with | .execBody c => some c | _ => none

/-- Events that take the advisory lock, open a transaction, run a body or
touch the rows of the bookkeeping table. -/
def isEngineWrite : Event → Bool
  | .lock => true
  | .beginTx => true
  | .execBody _ => true
  | .storeApplied _ => true
  | .deleteApplied _ => true
  | .commitTx => true
  | _ => false

/-- Catalog entries not yet recorded as applied, in catalog order. -/
def pendingOf (applied : List String) (migrations : List Migration) : List Migration :=
  migrations.filter (fun f => !(applied.contains f.Version))

/-- Trace produced by successfully applying the given entries in order. -/
def upTrace : List Migration → List Event
  | [] => []
  | f :: rest =>
    .beginTx :: .execBody f.Content :: .storeApplied f.Version :: .commitTx ::
      .infoFile "migrated" f.Version :: upTrace rest

/-- Trace produced by successfully rolling back the given versions in order. -/
def downTrace (migrations : List Migration) : List String → List Event
  | [] => []
  | v :: rest =>
    (match findMigration migrations v with
     | some m =>
       [.beginTx, .execBody m.DownContent, .deleteApplied v, .commitTx,
        .infoFile "rolled back" v]
     | none => []) ++ downTrace migrations rest

/-- The effective number of migrations `doDown` rolls back, after the
normalisation at the top of `doDown`. -/
def effDownSteps (steps : Int) (applied : List String) : Nat :=
  (if steps < 0 ∨ steps > (applied.length : Int) then (applied.length : Int) else steps).toNat

/-- The versions `doDown` rolls back, in rollback order (most recently
applied first). -/
def toRollbackList (steps : Int) (applied : List String) : List String :=
  (applied.drop (applied.length - effDownSteps steps applied)).reverse

/-- The effective number of pending entries `doUp` applies: the claim's
bound semantics (`steps <= 0` or `steps` above the pending count means
all pending). -/
def effUpSteps (steps : Int) (applied : List String) (migrations : List Migration) : Nat :=
  if steps ≤ 0 ∨ steps > ((pendingOf applied migrations).length : Int) then
    (pendingOf applied migrations).length
  else steps.toNat

/-- A successful real-mode `upLoop` run applies exactly the first `steps`
pending entries, in catalog order, appending their versions to the
bookkeeping table. -/
theorem upLoop_spec (migrations : List Migration) (s : DBState) (steps : Nat)
    (applied : List String)
    (h : ∀ f ∈ (pendingOf applied migrations).take steps, f.Content ≠ []) :
    upLoop s steps applied migrations ⟨false⟩ =
      ⟨.ok (),
        { s with applied :=
            s.applied ++ ((pendingOf applied migrations).take steps).map Migration.Version },
        upTrace ((pendingOf applied migrations).take steps)⟩ := by
  induction migrations generalizing s steps with
  | nil =>
    obtain ⟨tc, ap⟩ := s
    simp [upLoop, pendingOf, upTrace]
  | cons file rest ih =>
    obtain ⟨tc, ap⟩ := s
    match steps with
    | 0 => simp [upLoop, upTrace]
    | k + 1 =>
      by_cases hc : file.Version ∈ applied
      · have hp : pendingOf applied (file :: rest) = pendingOf applied rest := by
          simp [pendingOf, List.filter_cons, hc]
        rw [hp] at h ⊢
        simpa [upLoop, hc] using ih ⟨tc, ap⟩ (k + 1) h
      · have hp : pendingOf applied (file :: rest) = file :: pendingOf applied rest := by
          simp [pendingOf, List.filter_cons, hc]
        rw [hp] at h ⊢
        have hf : file.Content ≠ [] := h file (by simp)
        have hlen : ¬(file.Content.length = 0) := by
          simpa [List.length_eq_zero] using hf
        have hih := ih ⟨tc, ap ++ [file.Version]⟩ k (fun f hfm => h f (by simp [hfm]))
        simp [upLoop, hc, commitMigration, applyMigrations, hlen, hih, upTrace]

/-- The versions `doUp` appends to the bookkeeping table: the first
`effUpSteps` pending entries, in catalog order. -/
def appliedSlice (steps : Int) (applied : List String) (migrations : List Migration) :
    List String :=
  ((pendingOf applied migrations).take (effUpSteps steps applied migrations)).map
    Migration.Version

/-- C1: for every catalog and applied list, `doUp` executes exactly the
catalog entries whose version is not in the applied list, in catalog order
(ascending for a sorted catalog); with a step bound `steps` it stops after
`effUpSteps` such entries, where `steps <= 0` or `steps` above the number
of pending entries means all pending entries; their versions are appended
to the bookkeeping table in that order.  (The executed entries are assumed
to have non-empty forward bodies, i.e. execution itself succeeds.) -/
theorem doUp_applies_pending_in_order (s : DBState) (steps : Int) (applied : List String)
    (migrations : List Migration)
    (h : ∀ f ∈ (pendingOf applied migrations).take (effUpSteps steps applied migrations),
        f.Content ≠ []) :
    doUp s steps applied migrations ⟨false⟩ =
      ⟨.ok (),
        { s with applied := s.applied ++ appliedSlice steps applied migrations },
        upTrace ((pendingOf applied migrations).take (effUpSteps steps applied migrations))⟩ := by
  unfold appliedSlice
  have hple : (pendingOf applied migrations).length ≤ migrations.length :=
    List.length_filter_le _ _
  have hkey : (pendingOf applied migrations).take
      ((if steps ≤ 0 ∨ steps > (migrations.length : Int) then (migrations.length : Int)
        else steps).toNat) =
      (pendingOf applied migrations).take (effUpSteps steps applied migrations) := by
    rw [List.take_eq_take]
    unfold effUpSteps
    split <;> split <;> omega
  simp only [doUp]
  rw [upLoop_spec migrations s _ applied (by rw [hkey]; exact h), hkey]

/-- A successful real-mode `downLoop` run rolls back exactly the given
versions, in the given order, deleting each from the bookkeeping table. -/
theorem downLoop_spec (migs : List Migration) (l : List String) (s : DBState)
    (h : ∀ v ∈ l, ∃ m, findMigration migs v = some m ∧ m.DownContent ≠ []) :
    downLoop s l migs ⟨false⟩ =
      ⟨.ok (),
        { s with applied := l.foldl (fun acc v => acc.filter (fun x => !(x == v))) s.applied },
        downTrace migs l⟩ := by
  induction l generalizing s with
  | nil =>
    obtain ⟨tc, ap⟩ := s
    simp [downLoop, downTrace]
  | cons v rest ih =>
    obtain ⟨tc, ap⟩ := s
    obtain ⟨m, hm, hd⟩ := h v (by simp)
    have hv : m.Version = v := by
      have := List.find?_some hm
      simpa using this
    have hlen : ¬(m.DownContent.length = 0) := by
      simpa [List.length_eq_zero] using hd
    have hih := ih ⟨tc, ap.filter (fun x => !(x == v))⟩ (fun w hw => h w (by simp [hw]))
    simp [downLoop, hm, rollbackMigration, applyMigrations, hlen, hv, hih, downTrace]

/-- Trace `upTrace` stores exactly the versions of the applied entries. -/
theorem storedVersions_upTrace (l : List Migration) :
    storedVersions (upTrace l) = l.map Migration.Version := by
  induction l with
  | nil => simp [upTrace, storedVersions]
  | cons f rest ih => simp [upTrace, storedVersions, List.filterMap_cons] at ih ⊢; exact ih

/-- Trace `upTrace` deletes nothing. -/
theorem deletedVersions_upTrace (l : List Migration) :
    deletedVersions (upTrace l) = [] := by
  induction l with
  | nil => simp [upTrace, deletedVersions]
  | cons f rest ih => simp [upTrace, deletedVersions, List.filterMap_cons] at ih ⊢; exact ih

/-- Trace `downTrace` stores nothing. -/
theorem storedVersions_downTrace (migs : List Migration) (l : List String) :
    storedVersions (downTrace migs l) = [] := by
  induction l with
  | nil => simp [downTrace, storedVersions]
  | cons v rest ih =>
    cases hm : findMigration migs v <;>
      simp_all [downTrace, storedVersions, List.filterMap_cons, List.filterMap_append]

/-- Trace `downTrace` deletes exactly the given versions when each is found. -/
theorem deletedVersions_downTrace (migs : List Migration) (l : List String)
    (h : ∀ v ∈ l, (findMigration migs v).isSome) :
    deletedVersions (downTrace migs l) = l := by
  induction l with
  | nil => simp [downTrace, deletedVersions]
  | cons v rest ih =>
    obtain ⟨m, hm⟩ := Option.isSome_iff_exists.mp (h v (by simp))
    have hih := ih (fun w hw => h w (by simp [hw]))
    simp_all [downTrace, deletedVersions, List.filterMap_cons, List.filterMap_append]

/-- C2: for every applied list and integer step count, provided every
version to be reverted has a catalog entry (with a non-empty reverse body,
so that execution succeeds), `doDown` rolls back exactly the trailing
`effDownSteps` elements of the applied list — all of it when `steps < 0`
or `steps` exceeds its length — in strict reverse application order
(`toRollbackList`, most recently applied first), and when the effective
count is `0` it performs zero operations and reports
"no migrations to rollback". -/
theorem doDown_reverts_recent_suffix (s : DBState) (steps : Int) (applied : List String)
    (migs : List Migration)
    (h : ∀ v ∈ toRollbackList steps applied,
        ∃ m, findMigration migs v = some m ∧ m.DownContent ≠ []) :
    (doDown s steps applied migs ⟨false⟩).res = .ok () ∧
    deletedVersions (doDown s steps applied migs ⟨false⟩).trace = toRollbackList steps applied ∧
    storedVersions (doDown s steps applied migs ⟨false⟩).trace = [] ∧
    (effDownSteps steps applied = 0 →
      doDown s steps applied migs ⟨false⟩ = ⟨.ok (), s, [.info "no migrations to rollback"]⟩) := by
  have hnorm :
      (if steps < 0 ∨ steps > (applied.length : Int) then (applied.length : Int) else steps) =
        (effDownSteps steps applied : Int) := by
    unfold effDownSteps
    split <;> omega
  by_cases h0 : effDownSteps steps applied = 0
  · have hlist : toRollbackList steps applied = [] := by
      simp [toRollbackList, h0, List.drop_length]
    simp [doDown, hnorm, h0, hlist, deletedVersions, storedVersions]
  · have hne : ¬((effDownSteps steps applied : Int) = 0) := by omega
    have hlist :
        (applied.drop (applied.length - ((effDownSteps steps applied : Int)).toNat)).reverse =
          toRollbackList steps applied := by
      simp [toRollbackList]
    simp only [doDown, hnorm, hne, if_false, hlist]
    rw [downLoop_spec migs _ s h]
    refine ⟨rfl, ?_, ?_, fun hc => absurd hc h0⟩
    · exact deletedVersions_downTrace migs _ (fun v hv => by
        obtain ⟨m, hm, -⟩ := h v hv
        simp [hm])
    · exact storedVersions_downTrace migs _

/-- A real-mode `downLoop` run that reaches a version with no catalog
entry rolls back everything before it in the list, then stops with the
not-found error; nothing is done for the missing version or the rest. -/
theorem downLoop_error_at (migs : List Migration) (good : List String) (bad : String)
    (rest : List String) (s : DBState)
    (hgood : ∀ v ∈ good, ∃ m, findMigration migs v = some m ∧ m.DownContent ≠ [])
    (hbad : findMigration migs bad = none) :
    downLoop s (good ++ bad :: rest) migs ⟨false⟩ =
      ⟨.error ("migration file not found for version: " ++ bad),
        { s with applied :=
            good.foldl (fun acc v => acc.filter (fun x => !(x == v))) s.applied },
        downTrace migs good⟩ := by
  induction good generalizing s with
  | nil =>
    obtain ⟨tc, ap⟩ := s
    simp [downLoop, hbad, downTrace]
  | cons v gs ih =>
    obtain ⟨tc, ap⟩ := s
    obtain ⟨m, hm, hd⟩ := hgood v (by simp)
    have hv : m.Version = v := by
      have := List.find?_some hm
      simpa using this
    have hlen : ¬(m.DownContent.length = 0) := by
      simpa [List.length_eq_zero] using hd
    have hih := ih ⟨tc, ap.filter (fun x => !(x == v))⟩ (fun w hw => hgood w (by simp [hw]))
    simp [downLoop, hm, rollbackMigration, applyMigrations, hlen, hv, hih, downTrace]

/-- C4 (amended): when the sequence of versions `doDown` must revert
contains one with no catalog entry, the invocation fails with the
migration-not-found error at the first such version (scanning from the
most recently applied); the entries applied after it are rolled back
before the failure, and nothing is executed or deleted for the missing
version or for any entry applied before it. -/
theorem doDown_missing_entry_aborts (s : DBState) (steps : Int) (applied : List String)
    (migs : List Migration) (good : List String) (bad : String) (rest : List String)
    (hsplit : toRollbackList steps applied = good ++ bad :: rest)
    (hgood : ∀ v ∈ good, ∃ m, findMigration migs v = some m ∧ m.DownContent ≠ [])
    (hbad : findMigration migs bad = none) :
    (doDown s steps applied migs ⟨false⟩).res =
      .error ("migration file not found for version: " ++ bad) ∧
    deletedVersions (doDown s steps applied migs ⟨false⟩).trace = good ∧
    storedVersions (doDown s steps applied migs ⟨false⟩).trace = [] := by
  have hnorm :
      (if steps < 0 ∨ steps > (applied.length : Int) then (applied.length : Int) else steps) =
        (effDownSteps steps applied : Int) := by
    unfold effDownSteps
    split <;> omega
  have h0 : effDownSteps steps applied ≠ 0 := by
    intro h0
    have hnil : toRollbackList steps applied = [] := by
      simp [toRollbackList, h0, List.drop_length]
    rw [hsplit] at hnil
    cases good <;> simp at hnil
  have hne : ¬((effDownSteps steps applied : Int) = 0) := by omega
  have hlist :
      (applied.drop (applied.length - ((effDownSteps steps applied : Int)).toNat)).reverse =
        toRollbackList steps applied := by
    simp [toRollbackList]
  simp only [doDown, hnorm, hne, if_false, hlist, hsplit]
  rw [downLoop_error_at migs good bad rest s hgood hbad]
  refine ⟨rfl, ?_, storedVersions_downTrace migs good⟩
  exact deletedVersions_downTrace migs good (fun v hv => by
    obtain ⟨m, hm, -⟩ := hgood v hv
    simp [hm])

/-- A small concrete catalog used to instantiate the theorems. -/
def catalogW : List Migration :=
  [⟨"001", [1], [2]⟩, ⟨"002", [3], [4]⟩, ⟨"003", [5], [6]⟩]

/-- A catalog in which version "a" has no entry. -/
def catalogMissingA : List Migration := [⟨"b", [1], [2]⟩]

/-- Witness for C1: applying all pending entries of `catalogW` over
applied list `["001"]`. -/
theorem doUp_applies_pending_in_order_witness :
    doUp ⟨true, ["001"]⟩ 0 ["001"] catalogW ⟨false⟩ =
      ⟨.ok (), ⟨true, ["001"] ++ appliedSlice 0 ["001"] catalogW⟩,
        upTrace ((pendingOf ["001"] catalogW).take (effUpSteps 0 ["001"] catalogW))⟩ :=
  doUp_applies_pending_in_order ⟨true, ["001"]⟩ 0 ["001"] catalogW (by decide)

/-- Witness for C2: rolling back the last two of three applied versions. -/
theorem doDown_reverts_recent_suffix_witness :
    (doDown ⟨true, ["001", "002", "003"]⟩ 2 ["001", "002", "003"] catalogW ⟨false⟩).res =
      .ok () ∧
    deletedVersions
        (doDown ⟨true, ["001", "002", "003"]⟩ 2 ["001", "002", "003"] catalogW ⟨false⟩).trace =
      toRollbackList 2 ["001", "002", "003"] ∧
    storedVersions
        (doDown ⟨true, ["001", "002", "003"]⟩ 2 ["001", "002", "003"] catalogW ⟨false⟩).trace =
      [] ∧
    (effDownSteps 2 ["001", "002", "003"] = 0 →
      doDown ⟨true, ["001", "002", "003"]⟩ 2 ["001", "002", "003"] catalogW ⟨false⟩ =
        ⟨.ok (), ⟨true, ["001", "002", "003"]⟩, [.info "no migrations to rollback"]⟩) :=
  doDown_reverts_recent_suffix ⟨true, ["001", "002", "003"]⟩ 2 ["001", "002", "003"] catalogW
    (by
      intro v hv
      have hv' : v = "003" ∨ v = "002" := by
        simpa [toRollbackList, effDownSteps] using hv
      rcases hv' with rfl | rfl
      · exact ⟨⟨"003", [5], [6]⟩, by decide, by decide⟩
      · exact ⟨⟨"002", [3], [4]⟩, by decide, by decide⟩)

/-- C4 counterexample: applied `["a", "b"]`, catalog containing only `"b"`,
`Down` with 2 steps, not in dry run.  The invocation fails with the
not-found error for `"a"`, but only after rolling back `"b"`: its body
`[2]` was executed and the applied set shrank to `["a"]` — so progress was
made, contrary to the claim that no body is executed and the applied set
is unchanged. -/
theorem down_missing_entry_progress_cex :
    (DownM ⟨true, ["a", "b"]⟩ 2 (.ok catalogMissingA) ⟨false⟩).res =
      .error "migration file not found for version: a" ∧
    deletedVersions (DownM ⟨true, ["a", "b"]⟩ 2 (.ok catalogMissingA) ⟨false⟩).trace =
      ["b"] ∧
    executedBodies (DownM ⟨true, ["a", "b"]⟩ 2 (.ok catalogMissingA) ⟨false⟩).trace =
      [[2]] ∧
    (DownM ⟨true, ["a", "b"]⟩ 2 (.ok catalogMissingA) ⟨false⟩).state.applied = ["a"] := by
  decide

/-- Witness for the amended C4 at a concrete input. -/
theorem doDown_missing_entry_aborts_witness :
    (doDown ⟨true, ["a", "b"]⟩ 2 ["a", "b"] catalogMissingA ⟨false⟩).res =
      .error ("migration file not found for version: " ++ "a") ∧
    deletedVersions (doDown ⟨true, ["a", "b"]⟩ 2 ["a", "b"] catalogMissingA ⟨false⟩).trace =
      ["b"] ∧
    storedVersions (doDown ⟨true, ["a", "b"]⟩ 2 ["a", "b"] catalogMissingA ⟨false⟩).trace =
      [] :=
  doDown_missing_entry_aborts ⟨true, ["a", "b"]⟩ 2 ["a", "b"] catalogMissingA ["b"] "a" []
    (by decide)
    (by
      intro v hv
      have hv' : v = "b" := by simpa using hv
      subst hv'
      exact ⟨⟨"b", [1], [2]⟩, by decide, by decide⟩)
    (by decide)

/-- The bookkeeping rows left after deleting each of `keys` in turn. -/
def removeAll (A keys : List String) : List String :=
  keys.foldl (fun acc v => acc.filter (fun x => !(x == v))) A

/-- Successive row deletions amount to filtering out every deleted key. -/
theorem foldl_filter_beq (l A : List String) :
    l.foldl (fun acc v => acc.filter (fun x => !(x == v))) A =
      A.filter (fun x => !(l.contains x)) := by
  induction l generalizing A with
  | nil => simp
  | cons v rest ih =>
    rw [List.foldl_cons, ih, List.filter_filter]
    refine List.filter_congr ?_
    intro x _
    by_cases hx : x = v <;> simp [hx]

/-- Deleting exactly the keys of the suffix of a duplicate-free list keeps
exactly its prefix. -/
theorem filter_out_suffix (P S : List String) (t : String)
    (hnd : (P ++ t :: S).Nodup) :
    (P ++ t :: S).filter (fun x => !(S.contains x)) = P ++ [t] := by
  obtain ⟨hP, hts, hdisj⟩ := List.nodup_append.mp hnd
  have ht : t ∉ S := (List.nodup_cons.mp hts).1
  have h1 : P.filter (fun x => !(S.contains x)) = P := by
    rw [List.filter_eq_self]
    intro a ha
    have : a ∉ S := fun hc => hdisj ha (by simp [hc])
    simp [this]
  have h2 : S.filter (fun x => !(S.contains x)) = [] := by
    rw [List.filter_eq_nil_iff]
    intro a ha
    simp [ha]
  have hc : (!S.contains t) = true := by simp [ht]
  rw [List.filter_append, List.filter_cons, if_pos hc, h1, h2]

/-- Function `List.findIdx?` locates the first occurrence of `t` at index `P.length`
when `t` does not occur in `P`, for any start offset. -/
theorem findIdx_first_aux (P : List String) (t : String) (S : List String)
    (hP : t ∉ P) (i : Nat) :
    List.findIdx? (fun v => v == t) (P ++ t :: S) i = some (P.length + i) := by
  induction P generalizing i with
  | nil => simp [List.findIdx?_cons]
  | cons p ps ih =>
    have hpt : ¬(p = t) := fun hc => hP (by simp [hc])
    have hbeq : (p == t) = false := by
      simpa using hpt
    have := ih (fun hc => hP (by simp [hc])) (i + 1)
    simp only [List.cons_append, List.findIdx?_cons, hbeq, Bool.false_eq_true, if_false, this,
      List.length_cons, Option.some.injEq]
    omega

/-- Full description of a successful non-empty real-mode `doDown` run. -/
theorem doDown_full_spec (s : DBState) (steps : Int) (applied : List String)
    (migs : List Migration)
    (h : ∀ v ∈ toRollbackList steps applied,
        ∃ m, findMigration migs v = some m ∧ m.DownContent ≠ [])
    (h0 : effDownSteps steps applied ≠ 0) :
    doDown s steps applied migs ⟨false⟩ =
      ⟨.ok (),
        { s with applied := removeAll s.applied (toRollbackList steps applied) },
        downTrace migs (toRollbackList steps applied)⟩ := by
  have hnorm :
      (if steps < 0 ∨ steps > (applied.length : Int) then (applied.length : Int) else steps) =
        (effDownSteps steps applied : Int) := by
    unfold effDownSteps
    split <;> omega
  have hne : ¬((effDownSteps steps applied : Int) = 0) := by omega
  have hlist :
      (applied.drop (applied.length - ((effDownSteps steps applied : Int)).toNat)).reverse =
        toRollbackList steps applied := by
    simp [toRollbackList]
  simp only [doDown, hnorm, hne, if_false, hlist]
  exact downLoop_spec migs _ s h

/-- C3: for a non-empty duplicate-free applied list `P ++ target :: S`
(target at position `P.length`, not the most recently applied since
`S ≠ []`), `To(target)` reverts exactly the entries applied strictly after
the target — `S`, most recently applied first — leaving the applied set at
`P ++ [target]` with the target itself still applied, and applies no
forward migration.  (The reverted entries are assumed to have catalog
entries with non-empty reverse bodies, so execution succeeds.) -/
theorem to_applied_target_reverts_suffix (s : DBState) (migs : List Migration) (target : String)
    (P S : List String)
    (hA : s.applied = P ++ target :: S)
    (hnd : s.applied.Nodup)
    (hS : S ≠ [])
    (h : ∀ v ∈ S, ∃ m, findMigration migs v = some m ∧ m.DownContent ≠ []) :
    (ToM s target (.ok migs) ⟨false⟩).res = .ok () ∧
    deletedVersions (ToM s target (.ok migs) ⟨false⟩).trace = S.reverse ∧
    storedVersions (ToM s target (.ok migs) ⟨false⟩).trace = [] ∧
    (ToM s target (.ok migs) ⟨false⟩).state.applied = P ++ [target] ∧
    target ∈ (ToM s target (.ok migs) ⟨false⟩).state.applied := by
  obtain ⟨tc, ap⟩ := s
  dsimp only at hA hnd
  subst hA
  obtain ⟨hPnd, htsnd, hdisj⟩ := List.nodup_append.mp hnd
  have htP : target ∉ P := fun hc => hdisj hc (by simp)
  have htS : target ∉ S := (List.nodup_cons.mp htsnd).1
  -- the current version is the last element of S
  obtain ⟨c, hc⟩ := Option.isSome_iff_exists.mp (List.getLast?_isSome.mpr hS)
  have hglS : (target :: S).getLast? = some c := by
    cases S with
    | nil => exact absurd rfl hS
    | cons s0 S' => rw [List.getLast?_cons_cons]; exact hc
  have hgl : (P ++ target :: S).getLast? = some c := by
    rw [List.getLast?_append, hglS]
    rfl
  have hcS : c ∈ S := List.mem_of_mem_getLast? hc
  have hct : ¬(c = target) := fun hce => htS (hce ▸ hcS)
  have hbeq : (c == target) = false := by simpa using hct
  -- index of the target in the applied list
  have hidx : List.findIdx? (fun v => v == target) (P ++ target :: S) 0 = some P.length := by
    simpa using findIdx_first_aux P target S htP 0
  have hlenap : (P ++ target :: S).length = P.length + S.length + 1 := by
    simp [List.length_append]
    omega
  -- the step count handed to doDown
  have hsteps :
      ((P ++ target :: S).length : Int) - (P.length : Int) - 1 = (S.length : Int) := by
    rw [hlenap]
    push_cast
    omega
  -- the rollback list is exactly S reversed
  have heff : effDownSteps (S.length : Int) (P ++ target :: S) = S.length := by
    unfold effDownSteps
    have hcond :
        ¬((S.length : Int) < 0 ∨ (S.length : Int) > ((P ++ target :: S).length : Int)) := by
      rw [hlenap]
      push_cast
      omega
    rw [if_neg hcond]
    omega
  have hdrop : (P ++ target :: S).drop (P.length + 1) = S := by
    have hps : (P ++ [target]) ++ S = P ++ target :: S := by simp
    rw [← hps]
    exact List.drop_left' (by simp)
  have hrb : toRollbackList (S.length : Int) (P ++ target :: S) = S.reverse := by
    unfold toRollbackList
    rw [heff]
    have hlen : (P ++ target :: S).length - S.length = P.length + 1 := by
      rw [hlenap]
      omega
    rw [hlen, hdrop]
  have heff0 : effDownSteps (S.length : Int) (P ++ target :: S) ≠ 0 := by
    rw [heff]
    simpa [List.length_eq_zero] using hS
  -- the final applied set
  have hfold : removeAll (P ++ target :: S) S.reverse = P ++ [target] := by
    unfold removeAll
    rw [foldl_filter_beq]
    rw [List.filter_congr (fun x _ => by
      show (!(S.reverse.contains x)) = (!(S.contains x))
      by_cases hx : x ∈ S <;> simp [hx])]
    exact filter_out_suffix P S target hnd
  have hdown :=
    doDown_full_spec ⟨true, P ++ target :: S⟩ (S.length : Int) (P ++ target :: S) migs
      (by rw [hrb]; intro v hv; exact h v (List.mem_reverse.mp hv)) heff0
  rw [hrb] at hdown
  have hdeleted : deletedVersions (downTrace migs S.reverse) = S.reverse :=
    deletedVersions_downTrace migs S.reverse (fun v hv => by
      obtain ⟨m, hm, -⟩ := h v (List.mem_reverse.mp hv)
      simp [hm])
  have hstored := storedVersions_downTrace migs S.reverse
  have hToM :
      ToM ⟨tc, P ++ target :: S⟩ target (.ok migs) ⟨false⟩ =
        ⟨.ok (), ⟨true, P ++ [target]⟩,
          .createTable :: .lock :: .getMigrations :: .getApplied ::
            (downTrace migs S.reverse ++ [.unlock])⟩ := by
    simp only [ToM, prepareData, ToBody, Bool.false_eq_true, if_false, hgl, Option.getD_some,
      hbeq, hidx, hsteps, hdown, hfold]
  rw [hToM]
  refine ⟨rfl, ?_, ?_, rfl, by simp⟩
  · simpa [deletedVersions, List.filterMap_cons, List.filterMap_append] using hdeleted
  · simpa [storedVersions, List.filterMap_cons, List.filterMap_append] using hstored

/-- Witness for C3: applied `["001", "002", "003"]`, `To("001")` reverts
`"003"` then `"002"` and keeps `"001"` applied. -/
theorem to_applied_target_reverts_suffix_witness :
    (ToM ⟨true, ["001", "002", "003"]⟩ "001" (.ok catalogW) ⟨false⟩).res = .ok () ∧
    deletedVersions (ToM ⟨true, ["001", "002", "003"]⟩ "001" (.ok catalogW) ⟨false⟩).trace =
      (["002", "003"] : List String).reverse ∧
    storedVersions (ToM ⟨true, ["001", "002", "003"]⟩ "001" (.ok catalogW) ⟨false⟩).trace =
      [] ∧
    (ToM ⟨true, ["001", "002", "003"]⟩ "001" (.ok catalogW) ⟨false⟩).state.applied =
      [] ++ ["001"] ∧
    "001" ∈ (ToM ⟨true, ["001", "002", "003"]⟩ "001" (.ok catalogW) ⟨false⟩).state.applied :=
  to_applied_target_reverts_suffix ⟨true, ["001", "002", "003"]⟩ catalogW "001" [] ["002", "003"]
    rfl (by decide) (by decide)
    (by
      intro v hv
      have hv' : v = "002" ∨ v = "003" := by simpa using hv
      rcases hv' with rfl | rfl
      · exact ⟨⟨"002", [3], [4]⟩, by decide, by decide⟩
      · exact ⟨⟨"003", [5], [6]⟩, by decide, by decide⟩)

/-- If the target version occurs in the catalog and no entry before it
matches the current version, the `To` catalog scan reports the
inconsistent-order error (the `apply` flag never became true). -/
theorem toScan_error_of_target_before_current (pre : List Migration) (m : Migration)
    (rest : List Migration) (current target : String) (u : Nat)
    (hm : m.Version = target) (hcur : ∀ f ∈ pre, f.Version ≠ current)
    (hne : target ≠ current) :
    toScan (pre ++ m :: rest) false u current target =
      .error
        ("applied migration and migrations are not in the same order for version: " ++
          target) := by
  induction pre generalizing u with
  | nil =>
    have h1 : (m.Version == current) = false := by simpa [hm] using hne
    have h2 : (m.Version == target) = true := by simp [hm]
    simp [toScan, h1, h2]
  | cons f pre' ih =>
    have h1 : (f.Version == current) = false := by simpa using hcur f (by simp)
    by_cases hft : f.Version = target
    · simp [toScan, h1, hft, hne]
    · have h2 : (f.Version == target) = false := by simpa using hft
      simp [toScan, h1, h2, ih u (fun g hg => hcur g (by simp [hg]))]

/-- C7: with at least one migration applied and the target not applied,
if the catalog contains an entry for the target with no entry matching the
current version (the last applied identifier) anywhere before it, then
`To(target)` fails with the inconsistent-order error and executes no
operation: the state is untouched apart from the idempotent table-creation
flag, and the trace holds only the bookkeeping reads plus lock/unlock. -/
theorem to_inconsistent_order_fails (s : DBState) (pre rest : List Migration)
    (m : Migration) (target : String)
    (hne : s.applied ≠ [])
    (hmem : target ∉ s.applied)
    (hm : m.Version = target)
    (hcur : ∀ f ∈ pre, f.Version ≠ s.applied.getLast?.getD "") :
    ToM s target (.ok (pre ++ m :: rest)) ⟨false⟩ =
      ⟨.error
          ("applied migration and migrations are not in the same order for version: " ++
            target),
        { s with tableCreated := true },
        [.createTable, .lock, .getMigrations, .getApplied, .unlock]⟩ := by
  obtain ⟨tc, ap⟩ := s
  dsimp only at hne hmem hcur
  obtain ⟨c, hc⟩ := Option.isSome_iff_exists.mp (List.getLast?_isSome.mpr hne)
  have hcmem : c ∈ ap := List.mem_of_mem_getLast? hc
  have hgetd : ap.getLast?.getD "" = c := by rw [hc]; rfl
  have hct : ¬(c = target) := fun hce => hmem (hce ▸ hcmem)
  have hbeq : (c == target) = false := by simpa using hct
  have hfind : ap.findIdx? (fun v => v == target) = none := by
    rw [List.findIdx?_eq_none_iff]
    intro v hv
    have : ¬(v = target) := fun hve => hmem (hve ▸ hv)
    simpa using this
  have hemp : ap.isEmpty = false := List.isEmpty_eq_false.mpr hne
  have htc : target ≠ c := fun hce => hct hce.symm
  have hscan :=
    toScan_error_of_target_before_current pre m rest c target 0 hm
      (by simpa [hgetd] using hcur) htc
  simp only [ToM, prepareData, ToBody, Bool.false_eq_true, if_false, hgetd, hc,
    Option.getD_some, hbeq, hfind, hemp, hscan, List.nil_append]

/-- A two-entry catalog in which "a" sorts before the applied "b". -/
def catalogAB : List Migration := [⟨"a", [1], [2]⟩, ⟨"b", [3], [4]⟩]

/-- Witness for C7: applied `["b"]`, `To("a")` over catalog `[a, b]`
hits `"a"` before `"b"` and fails with the inconsistent-order error. -/
theorem to_inconsistent_order_fails_witness :
    ToM ⟨false, ["b"]⟩ "a" (.ok ([] ++ ⟨"a", [1], [2]⟩ :: [⟨"b", [3], [4]⟩])) ⟨false⟩ =
      ⟨.error
          ("applied migration and migrations are not in the same order for version: " ++ "a"),
        ⟨true, ["b"]⟩,
        [.createTable, .lock, .getMigrations, .getApplied, .unlock]⟩ :=
  to_inconsistent_order_fails ⟨false, ["b"]⟩ [] [⟨"b", [3], [4]⟩] ⟨"a", [1], [2]⟩ "a"
    (by decide) (by decide) rfl (by simp)

/-- If some version in the rollback list has no catalog entry, `downLoop`
cannot succeed: it stops with an error (the not-found error at the missing
version, or an earlier execution error), in dry run and real mode alike. -/
theorem downLoop_missing_fails (l : List String) (migs : List Migration) (s : DBState)
    (options : RunOptions)
    (h : ∃ v ∈ l, findMigration migs v = none) :
    ∃ e, (downLoop s l migs options).res = Except.error e := by
  induction l generalizing s with
  | nil => simp at h
  | cons v rest ih =>
    obtain ⟨w, hw, hwn⟩ := h
    cases hf : findMigration migs v with
    | none =>
      exact ⟨"migration file not found for version: " ++ v, by simp [downLoop, hf]⟩
    | some m =>
      have hwrest : w ∈ rest := by
        rcases List.mem_cons.mp hw with rfl | hr
        · rw [hf] at hwn; exact absurd hwn (by simp)
        · exact hr
      have hrest : ∃ u ∈ rest, findMigration migs u = none := ⟨w, hwrest, hwn⟩
      by_cases hd : options.DryRun
      · obtain ⟨e, he⟩ := ih s hrest
        exact ⟨e, by simp [downLoop, hf, hd, he]⟩
      · cases hcr : (rollbackMigration s m).res with
        | error e =>
          exact ⟨"failed to rollback migration " ++ v ++ ": " ++ e,
            by simp [downLoop, hf, hd, hcr]⟩
        | ok u =>
          obtain ⟨e, he⟩ := ih (rollbackMigration s m).state hrest
          exact ⟨e, by simp [downLoop, hf, hd, hcr, he]⟩

/-- C6 counterexample: the applied record contains `"ghost"`, the catalog
is empty, yet `Up` succeeds — reconciliation does not fail on an applied
identifier that is missing from the catalog. -/
theorem up_ignores_unknown_applied_cex :
    findMigration ([] : List Migration) "ghost" = none ∧
    (UpM ⟨false, ["ghost"]⟩ (.ok []) ⟨false⟩).res = .ok () := by
  decide

/-- C6 (amended): only the identifiers an invocation must revert are
checked against the catalog: when some version in `Down`'s rollback list
has no catalog entry, the invocation fails with an error (in dry-run and
real mode alike); `Up` performs no such validation, so a successful run
does not imply that every applied identifier existed in the catalog. -/
theorem down_missing_catalog_entry_fails (s : DBState) (steps : Int)
    (migs : List Migration) (options : RunOptions)
    (h : ∃ v ∈ toRollbackList steps s.applied, findMigration migs v = none) :
    ∃ e, (DownM s steps (.ok migs) options).res = Except.error e := by
  have hnorm :
      (if steps < 0 ∨ steps > (s.applied.length : Int) then (s.applied.length : Int)
        else steps) = (effDownSteps steps s.applied : Int) := by
    unfold effDownSteps
    split <;> omega
  have h0 : effDownSteps steps s.applied ≠ 0 := by
    intro h0
    rw [show toRollbackList steps s.applied = [] by
      simp [toRollbackList, h0, List.drop_length]] at h
    simp at h
  have hne : ¬((effDownSteps steps s.applied : Int) = 0) := by omega
  have hlist :
      (s.applied.drop (s.applied.length - ((effDownSteps steps s.applied : Int)).toNat)).reverse =
        toRollbackList steps s.applied := by
    simp [toRollbackList]
  obtain ⟨e, he⟩ :=
    downLoop_missing_fails (toRollbackList steps s.applied) migs
      { s with tableCreated := true } options h
  refine ⟨e, ?_⟩
  unfold toRollbackList at he
  by_cases hd : options.DryRun <;>
    simp [DownM, prepareData, hd, doDown, hnorm, hne, hlist, he]

/-- Witness for the amended C6: applied `["x"]`, empty catalog, `Down(1)`
fails. -/
theorem down_missing_catalog_entry_fails_witness :
    ∃ e, (DownM ⟨true, ["x"]⟩ 1 (.ok ([] : List Migration)) ⟨false⟩).res = Except.error e :=
  down_missing_catalog_entry_fails ⟨true, ["x"]⟩ 1 [] ⟨false⟩
    ⟨"x", by decide, by decide⟩

/-- Loop `upLoop` only ever appends to the bookkeeping table. -/
theorem upLoop_state_shape (migrations : List Migration) (s : DBState) (steps : Nat)
    (applied : List String) (options : RunOptions) :
    ∃ t, (upLoop s steps applied migrations options).state =
      { s with applied := s.applied ++ t } := by
  induction migrations generalizing s steps with
  | nil => exact ⟨[], by cases s; simp [upLoop]⟩
  | cons file rest ih =>
    obtain ⟨tc, ap⟩ := s
    match steps with
    | 0 => exact ⟨[], by simp [upLoop]⟩
    | k + 1 =>
      by_cases hc : file.Version ∈ applied
      · obtain ⟨t, ht⟩ := ih ⟨tc, ap⟩ (k + 1)
        exact ⟨t, by simpa [upLoop, hc] using ht⟩
      · by_cases hd : options.DryRun
        · obtain ⟨t, ht⟩ := ih ⟨tc, ap⟩ k
          exact ⟨t, by simpa [upLoop, hc, hd] using ht⟩
        · by_cases hlen : file.Content.length = 0
          · exact ⟨[], by simp [upLoop, hc, hd, commitMigration, applyMigrations, hlen]⟩
          · obtain ⟨t, ht⟩ := ih ⟨tc, ap ++ [file.Version]⟩ k
            exact ⟨file.Version :: t,
              by simp [upLoop, hc, hd, commitMigration, applyMigrations, hlen, ht]⟩

/-- After a successful real-mode `upLoop` run with a sufficient step
budget, every catalog entry is recorded: it was applied before the run or
is in the final bookkeeping table. -/
theorem upLoop_ok_covers (migrations : List Migration) (s : DBState) (steps : Nat)
    (applied : List String)
    (hlen : migrations.length ≤ steps)
    (hok : (upLoop s steps applied migrations ⟨false⟩).res = .ok ()) :
    ∀ f ∈ migrations, f.Version ∈ applied ∨
      f.Version ∈ (upLoop s steps applied migrations ⟨false⟩).state.applied := by
  induction migrations generalizing s steps with
  | nil => simp
  | cons file rest ih =>
    match steps with
    | 0 => simp at hlen
    | k + 1 =>
      have hlr : rest.length ≤ k := by simpa using hlen
      by_cases hc : file.Version ∈ applied
      · intro f hf
        rcases List.mem_cons.mp hf with rfl | hfr
        · exact .inl hc
        · have := ih s (k + 1) (by omega) (by simpa [upLoop, hc] using hok) f hfr
          simpa [upLoop, hc] using this
      · by_cases hlen0 : file.Content.length = 0
        · simp [upLoop, hc, commitMigration, applyMigrations, hlen0] at hok
        · intro f hf
          simp [upLoop, hc, commitMigration, applyMigrations, hlen0] at hok
          rcases List.mem_cons.mp hf with rfl | hfr
          · right
            obtain ⟨t, ht⟩ :=
              upLoop_state_shape rest { s with applied := s.applied ++ [f.Version] } k
                applied ⟨false⟩
            simp [upLoop, hc, commitMigration, applyMigrations, hlen0, ht]
          · have := ih { s with applied := s.applied ++ [file.Version] } k hlr hok f hfr
            simpa [upLoop, hc, commitMigration, applyMigrations, hlen0] using this

/-- C8: idempotence of `Up` — if a real-mode `Up` run over a catalog
completes successfully, a second `Up` over the same catalog starting from
the state produced by the first emits zero operations: its result keeps
the state unchanged and its trace holds only the bookkeeping reads and the
lock bracket (no transaction, no body, no store, no log line). -/
theorem up_idempotent (s : DBState) (migs : List Migration)
    (hok : (UpM s (.ok migs) ⟨false⟩).res = .ok ()) :
    UpM ((UpM s (.ok migs) ⟨false⟩).state) (.ok migs) ⟨false⟩ =
      ⟨.ok (), (UpM s (.ok migs) ⟨false⟩).state,
        [.createTable, .lock, .getMigrations, .getApplied, .unlock]⟩ := by
  obtain ⟨tc, ap⟩ := s
  have h2 : doUp ⟨true, ap⟩ 0 ap migs ⟨false⟩ = upLoop ⟨true, ap⟩ migs.length ap migs ⟨false⟩ := by
    simp [doUp]
  have h1 : UpM ⟨tc, ap⟩ (.ok migs) ⟨false⟩ =
      ⟨(upLoop ⟨true, ap⟩ migs.length ap migs ⟨false⟩).res,
        (upLoop ⟨true, ap⟩ migs.length ap migs ⟨false⟩).state,
        .createTable :: .lock :: .getMigrations :: .getApplied ::
          ((upLoop ⟨true, ap⟩ migs.length ap migs ⟨false⟩).trace ++ [.unlock])⟩ := by
    simp [UpM, prepareData, h2]
  rw [h1] at hok ⊢
  have hokL : (upLoop ⟨true, ap⟩ migs.length ap migs ⟨false⟩).res = .ok () := hok
  have hcov := upLoop_ok_covers migs ⟨true, ap⟩ migs.length ap (le_refl _) hokL
  obtain ⟨t, ht⟩ := upLoop_state_shape migs ⟨true, ap⟩ migs.length ap ⟨false⟩
  simp only at ht
  rw [ht] at hcov ⊢
  have hpend : pendingOf (ap ++ t) migs = [] := by
    rw [pendingOf, List.filter_eq_nil_iff]
    intro f hf
    have hmem : f.Version ∈ ap ++ t := by
      rcases hcov f hf with hap | hin
      · exact List.mem_append_left t hap
      · simpa using hin
    simp [hmem]
  have hsecond := upLoop_spec migs ⟨true, ap ++ t⟩ migs.length (ap ++ t) (by simp [hpend])
  rw [hpend] at hsecond
  simp only [List.take_nil, List.map_nil, List.append_nil, upTrace] at hsecond
  have h3 : doUp ⟨true, ap ++ t⟩ 0 (ap ++ t) migs ⟨false⟩ =
      upLoop ⟨true, ap ++ t⟩ migs.length (ap ++ t) migs ⟨false⟩ := by
    simp [doUp]
  simp [UpM, prepareData, h3, hsecond]

/-- Witness for C8: after `Up` over `catalogW` from an empty state, a
second `Up` emits zero operations. -/
theorem up_idempotent_witness :
    UpM ((UpM ⟨false, []⟩ (.ok catalogW) ⟨false⟩).state) (.ok catalogW) ⟨false⟩ =
      ⟨.ok (), (UpM ⟨false, []⟩ (.ok catalogW) ⟨false⟩).state,
        [.createTable, .lock, .getMigrations, .getApplied, .unlock]⟩ :=
  up_idempotent ⟨false, []⟩ catalogW (by decide)

/-- A dry-run `upLoop` leaves the state alone and emits no write event. -/
theorem upLoop_dry (migrations : List Migration) (s : DBState) (steps : Nat)
    (applied : List String) :
    (upLoop s steps applied migrations ⟨true⟩).state = s ∧
    (upLoop s steps applied migrations ⟨true⟩).trace.filter isEngineWrite = [] := by
  induction migrations generalizing s steps with
  | nil => simp [upLoop]
  | cons file rest ih =>
    match steps with
    | 0 => simp [upLoop]
    | k + 1 =>
      by_cases hc : file.Version ∈ applied
      · simpa [upLoop, hc] using ih s (k + 1)
      · have := ih s k
        simp [upLoop, hc, isEngineWrite, this]

/-- A dry-run `downLoop` leaves the state alone and emits no write event. -/
theorem downLoop_dry (l : List String) (migs : List Migration) (s : DBState) :
    (downLoop s l migs ⟨true⟩).state = s ∧
    (downLoop s l migs ⟨true⟩).trace.filter isEngineWrite = [] := by
  induction l generalizing s with
  | nil => simp [downLoop]
  | cons v rest ih =>
    cases hf : findMigration migs v with
    | none => simp [downLoop, hf]
    | some m =>
      have := ih s
      simp [downLoop, hf, isEngineWrite, this]

/-- A dry-run `doUp` leaves the state alone and emits no write event. -/
theorem doUp_dry (s : DBState) (steps : Int) (applied : List String)
    (migrations : List Migration) :
    (doUp s steps applied migrations ⟨true⟩).state = s ∧
    (doUp s steps applied migrations ⟨true⟩).trace.filter isEngineWrite = [] := by
  simp only [doUp]
  exact upLoop_dry migrations s _ applied

/-- A dry-run `doDown` leaves the state alone and emits no write event. -/
theorem doDown_dry (s : DBState) (steps : Int) (applied : List String)
    (migs : List Migration) :
    (doDown s steps applied migs ⟨true⟩).state = s ∧
    (doDown s steps applied migs ⟨true⟩).trace.filter isEngineWrite = [] := by
  simp only [doDown]
  split
  · split
    · exact ⟨rfl, by simp [isEngineWrite]⟩
    · exact downLoop_dry _ migs s
  · split
    · exact ⟨rfl, by simp [isEngineWrite]⟩
    · exact downLoop_dry _ migs s

/-- A dry-run `ToBody` leaves the state alone and emits no write event. -/
theorem ToBody_dry (s : DBState) (applied : List String) (migs : List Migration)
    (version : String) :
    (ToBody s applied migs version ⟨true⟩).state = s ∧
    (ToBody s applied migs version ⟨true⟩).trace.filter isEngineWrite = [] := by
  by_cases hcv : (applied.getLast?.getD "" == version) = true
  · simp [ToBody, hcv]
  · cases hidx : applied.findIdx? (fun v => v == version) with
    | some i =>
      have := doDown_dry s ((applied.length : Int) - (i : Int) - 1) applied migs
      simp [ToBody, hcv, hidx, this]
    | none =>
      cases hscan : toScan migs applied.isEmpty 0 (applied.getLast?.getD "") version with
      | error e => simp [ToBody, hcv, hidx, hscan]
      | ok p =>
        obtain ⟨found, upSteps⟩ := p
        by_cases hfound : found
        · by_cases hup : 0 < upSteps
          · have := doUp_dry s (upSteps : Int) applied migs
            simp [ToBody, hcv, hidx, hscan, hfound, hup, this]
          · simp [ToBody, hcv, hidx, hscan, hfound, hup]
        · simp [ToBody, hcv, hidx, hscan, hfound]

/-- C5 (amended): in dry-run mode, `Up`, `Down` and `To` never acquire
the lock, never begin a transaction, never execute a migration body and
never insert or delete a bookkeeping row: the rows of the bookkeeping
table are unchanged and the trace holds no write event.  (The unconditional
idempotent bookkeeping-table creation is still issued, which is the one
write dry-run mode performs — see the counterexample.) -/
theorem dryRun_no_writes (s : DBState) (steps : Int) (target : String)
    (src : Except String (List Migration)) :
    ((UpM s src ⟨true⟩).trace.filter isEngineWrite = [] ∧
      (UpM s src ⟨true⟩).state.applied = s.applied) ∧
    ((DownM s steps src ⟨true⟩).trace.filter isEngineWrite = [] ∧
      (DownM s steps src ⟨true⟩).state.applied = s.applied) ∧
    ((ToM s target src ⟨true⟩).trace.filter isEngineWrite = [] ∧
      (ToM s target src ⟨true⟩).state.applied = s.applied) := by
  obtain ⟨tc, ap⟩ := s
  cases src with
  | error e => simp [UpM, DownM, ToM, prepareData, isEngineWrite]
  | ok migs =>
    have hup := doUp_dry ⟨true, ap⟩ 0 ap migs
    have hdown := doDown_dry ⟨true, ap⟩ steps ap migs
    have hto := ToBody_dry ⟨true, ap⟩ ap migs target
    refine ⟨⟨?_, ?_⟩, ⟨?_, ?_⟩, ⟨?_, ?_⟩⟩ <;>
      simp [UpM, DownM, ToM, prepareData, isEngineWrite, hup.1, hup.2, hdown.1, hdown.2,
        hto.1, hto.2]

/-- C5 counterexample: a dry-run `Up` on a fresh database still issues the
bookkeeping-table creation — the state records the table as created and
the trace holds the `createTable` call, so a dry run is not entirely
write-free. -/
theorem dryRun_creates_table_cex :
    (UpM ⟨false, []⟩ (.ok []) ⟨true⟩).state.tableCreated = true ∧
    Event.createTable ∈ (UpM ⟨false, []⟩ (.ok []) ⟨true⟩).trace := by
  decide

/-- C9 (amended): when reading the catalog fails, every mode aborts with
that error before reading the applied set and before any transaction, body
execution or bookkeeping-row change — but only after the bookkeeping-table
creation and the lock acquisition, and the lock is released on the error
path: the trace is exactly `createTable, lock, getMigrations, unlock`. -/
theorem catalog_read_failure_aborts (s : DBState) (e : String) (steps : Int) (target : String) :
    UpM s (.error e) ⟨false⟩ =
      ⟨.error ("failed to get migration files: " ++ e), { s with tableCreated := true },
        [.createTable, .lock, .getMigrations, .unlock]⟩ ∧
    DownM s steps (.error e) ⟨false⟩ = UpM s (.error e) ⟨false⟩ ∧
    ToM s target (.error e) ⟨false⟩ = UpM s (.error e) ⟨false⟩ :=
  ⟨rfl, rfl, rfl⟩

/-- C9 counterexample: on a catalog read failure the lock has already been
acquired and the table-creation write already performed, contrary to the
claim that the invocation aborts before any lock acquisition or write. -/
theorem catalog_read_failure_locks_cex :
    (UpM ⟨false, ["a"]⟩ (.error "disk failure") ⟨false⟩).res =
      .error "failed to get migration files: disk failure" ∧
    Event.lock ∈ (UpM ⟨false, ["a"]⟩ (.error "disk failure") ⟨false⟩).trace ∧
    (UpM ⟨false, ["a"]⟩ (.error "disk failure") ⟨false⟩).state.tableCreated = true := by
  decide

/-- C10: the empty-body check lives in `applyMigrations`, which dry-run
mode never reaches: a pending migration with empty forward body (resp. an
applied migration with empty reverse body) is reported as a would-execute
operation by a dry run, which returns no error; a real run fails on that
operation with the no-content error before any transaction begins, leaving
the state unchanged. -/
theorem dryRun_skips_empty_body_check (s : DBState) (v : String) (c down : List UInt8) :
    (doUp s 1 [] [⟨v, [], down⟩] ⟨true⟩ = ⟨.ok (), s, [.infoFile "would migrate" v]⟩) ∧
    ((doUp s 1 [] [⟨v, [], down⟩] ⟨false⟩).res =
        .error ("failed to apply migration " ++ v ++ ": " ++
          ("no content to apply for migration: " ++ v)) ∧
      Event.beginTx ∉ (doUp s 1 [] [⟨v, [], down⟩] ⟨false⟩).trace ∧
      (doUp s 1 [] [⟨v, [], down⟩] ⟨false⟩).state = s) ∧
    (doDown s 1 [v] [⟨v, c, []⟩] ⟨true⟩ = ⟨.ok (), s, [.infoFile "would rollback" v]⟩) ∧
    ((doDown s 1 [v] [⟨v, c, []⟩] ⟨false⟩).res =
        .error ("failed to rollback migration " ++ v ++ ": " ++
          ("no content to apply for migration: " ++ v)) ∧
      Event.beginTx ∉ (doDown s 1 [v] [⟨v, c, []⟩] ⟨false⟩).trace ∧
      (doDown s 1 [v] [⟨v, c, []⟩] ⟨false⟩).state = s) := by
  refine ⟨?_, ⟨?_, ?_, ?_⟩, ?_, ⟨?_, ?_, ?_⟩⟩ <;>
    simp [doUp, upLoop, doDown, downLoop, findMigration, commitMigration, rollbackMigration,
      applyMigrations, String.append_assoc]

end Migrate

-- sanity checks on concrete inputs, mirroring the repository's tests
example :
    Migrate.doUp ⟨true, ["001"]⟩ 0 ["001"]
      [⟨"001", [1], [2]⟩, ⟨"002", [3], [4]⟩] ⟨false⟩ =
    ⟨.ok (), ⟨true, ["001", "002"]⟩,
      [.beginTx, .execBody [3], .storeApplied "002", .commitTx,
       .infoFile "migrated" "002"]⟩ := by decide

example :
    Migrate.doDown ⟨true, ["001", "002"]⟩ 1 ["001", "002"]
      [⟨"001", [1], [2]⟩, ⟨"002", [3], [4]⟩] ⟨false⟩ =
    ⟨.ok (), ⟨true, ["001"]⟩,
      [.beginTx, .execBody [4], .deleteApplied "002", .commitTx,
       .infoFile "rolled back" "002"]⟩ := by decide

example :
    (Migrate.ToM ⟨true, ["001", "002", "003"]⟩ "001"
      (.ok [⟨"001", [1], [2]⟩, ⟨"002", [3], [4]⟩, ⟨"003", [5], [6]⟩]) ⟨false⟩).state.applied =
    ["001"] := by decide

example :
    (Migrate.ToM ⟨true, ["001"]⟩ "003"
      (.ok [⟨"001", [1], [2]⟩, ⟨"002", [3], [4]⟩, ⟨"003", [5], [6]⟩]) ⟨false⟩).state.applied =
    ["001", "002", "003"] := by decide
